import Mathlib

/-!
Verification of the wfb-retransmit client/server pair.

This file is a shallow embedding of the protocol logic of
`src/wfb-retransmit/client.c` and `src/wfb-retransmit/server.c`:

* the client's missing-packet tracker (`add_missing_packet`,
  `remove_expired_packets`, the gap-detection body of `receive_packets`),
* the client's request batching (the drain loop of
  `request_missing_packets`),
* the server's ring-buffer packet cache (the insert step of
  `receive_and_forward` and the lookup loop of
  `handle_retransmit_requests`),
* the retransmit-request wire codec (count byte followed by 4-byte
  big-endian sequence numbers, as written by `request_missing_packets`
  and read by `handle_retransmit_requests`).

Modelling conventions:

* C `int` values are modelled as `Int` (the sequence numbers in play are
  small, far from overflow); byte and ordinal counters are `Nat`.
* `time(NULL) * 1000` is passed in as an explicit `now_ms : Int`
  parameter at each event.
* A received datagram is modelled by the full `malloc`ed receive buffer
  `recv_buf : List Nat` (one `Nat` per byte, length = configured
  `buf_size`) together with the number `recv_len` of bytes actually
  received; bytes of `recv_buf` past `recv_len` model the uninitialized
  tail of the C buffer.
* A fresh server cache slot (whose C `sequence_number` is uninitialized
  and whose `data` is `NULL`) is modelled as `⟨-1, []⟩`; all theorems
  below only ever inspect slots that have been written.
-/

/-- MAX_MISSING_PACKETS from client.c: capacity of the missing-packet array. -/
def MAX_MISSING_PACKETS : Nat := 100

/-- MAX_RETRANSMIT_QUEUE_SIZE from client.c. -/
def MAX_RETRANSMIT_QUEUE_SIZE : Nat := 100

/-- MAX_BATCH_SIZE from client.c: at most this many requests in one batch. -/
def MAX_BATCH_SIZE : Nat := 20

/-- The MissingPacket struct of client.c: a tracked gap sequence together
with the absolute time (ms) at which the client gives up on it. -/
structure MissingPacket where
  sequence_number : Int
  expiration_time : Int
  deriving DecidableEq, Repr

/-- The state of the client's receive thread: the shared `missing_packets`
array (listed in storage order, index 0 first) and the thread-local
`last_seq`, which client.c initializes to `-1`. -/
structure ClientState where
  missing_packets : List MissingPacket
  last_seq : Int
  deriving DecidableEq, Repr

/-- Client state before the first datagram arrives: empty missing-set and
`last_seq = -1` (client.c, `int last_seq = -1;`). -/
def initialClientState : ClientState := ⟨[], -1⟩

/-- add_missing_packet from client.c: append `{seq, now + hold}` at index
`missing_count` if the array is not full, else do nothing (silent drop). -/
def add_missing_packet (ms : List MissingPacket) (seq : Int)
    (now_ms hold_duration : Int) : List MissingPacket :=
  if ms.length < MAX_MISSING_PACKETS then
    ms ++ [⟨seq, now_ms + hold_duration⟩]
  else ms

/-- The gap loop of receive_packets: `for (int i = lo; i < seq; ++i)
add_missing_packet(i, hold)`, with the iteration count `(seq - lo).toNat`
made explicit for structural recursion. -/
def gap_insert_go (now_ms hold : Int) :
    List MissingPacket → Int → Nat → List MissingPacket
  | ms, _, 0 => ms
  | ms, lo, n + 1 =>
    gap_insert_go now_ms hold (add_missing_packet ms lo now_ms hold) (lo + 1) n

/-- One iteration of the receive loop of receive_packets (client.c):
read the sequence number, insert an entry for every skipped sequence in
`(last_seq, seq)` when `seq != last_seq + 1`, then set `last_seq = seq`
unconditionally. -/
def observe (st : ClientState) (seq now_ms hold : Int) : ClientState :=
  ⟨if seq ≠ st.last_seq + 1 then
      gap_insert_go now_ms hold st.missing_packets (st.last_seq + 1)
        (seq - (st.last_seq + 1)).toNat
    else st.missing_packets,
   seq⟩

/-- Observing a whole list of sequence numbers in order, all at the same
clock reading. -/
def observe_list (st : ClientState) (seqs : List Int) (now_ms hold : Int) :
    ClientState :=
  seqs.foldl (fun s q => observe s q now_ms hold) st

/-- The drain loop of request_missing_packets (client.c): walk the array
from index 0, copying sequence numbers into the request while
`batch_size < MAX_BATCH_SIZE` (the inner `batch_size <
MAX_RETRANSMIT_QUEUE_SIZE` test is mirrored as well). No entry is removed
and no expiry test is made here. -/
def collect_batch : List MissingPacket → Nat → List Int
  | [], _ => []
  | p :: rest, b =>
    if b < MAX_BATCH_SIZE then
      if b < MAX_RETRANSMIT_QUEUE_SIZE then
        p.sequence_number :: collect_batch rest (b + 1)
      else collect_batch rest b
    else []

/-- The sequence numbers put into one request datagram from the current
missing-set (storage order, capped at MAX_BATCH_SIZE). -/
def drain_batch (ms : List MissingPacket) : List Int :=
  collect_batch ms 0

/-- remove_expired_packets from client.c: a while loop over index `i`
that, on an expired entry, overwrites it with the last entry and shrinks
the array (swap-remove, without advancing `i`), and otherwise advances.
The fuel argument bounds the iteration count; `ms.length` iterations
always suffice because each step shrinks `length - i`. -/
def remove_expired_go (now : Int) :
    Nat → List MissingPacket → Nat → List MissingPacket
  | 0, ms, _ => ms
  | fuel + 1, ms, i =>
    if h : i < ms.length then
      if ms[i].expiration_time ≤ now then
        remove_expired_go now fuel ((ms.set i (ms.getLastD ⟨0, 0⟩)).dropLast) i
      else
        remove_expired_go now fuel ms (i + 1)
    else ms

/-- remove_expired_packets from client.c at clock reading `now`. -/
def remove_expired_packets (ms : List MissingPacket) (now : Int) :
    List MissingPacket :=
  remove_expired_go now ms.length ms 0

/-- One tick of the request_missing_packets loop (client.c): first drain
a batch from the missing-set (and send it if non-empty), then — after the
1 ms sleep — purge expired entries. Returns (batch, missing-set after the
purge). -/
def requester_tick (ms : List MissingPacket) (now : Int) :
    List Int × List MissingPacket :=
  (drain_batch ms, remove_expired_packets ms now)

/-- The Packet struct of server.c: one cache slot holding the sequence
(arrival ordinal) it currently represents and the stored receive buffer.
A never-written slot is `⟨-1, []⟩` (uninitialized `sequence_number`,
`NULL` data). -/
structure Packet where
  sequence_number : Int
  data : List Nat
  deriving DecidableEq, Repr

/-- The server's shared state: the ring buffer and the receive thread's
local arrival counter `seq` (starts at 0). -/
structure ServerState where
  buffer : List Packet
  seq : Nat
  deriving DecidableEq, Repr

/-- Server state after main's initialization with cache capacity `N`. -/
def init_server (N : Nat) : ServerState :=
  ⟨List.replicate N ⟨-1, []⟩, 0⟩

/-- One iteration of receive_and_forward (server.c): store the whole
receive buffer at ring index `seq % buffer_size` tagged with the current
arrival ordinal, bump the ordinal, and forward the `recv_len` received
bytes to the consumer. Returns (new state, forwarded datagram bytes). -/
def receive_and_forward_step (st : ServerState) (recv_buf : List Nat)
    (recv_len : Nat) : ServerState × List Nat :=
  let idx := st.seq % st.buffer.length
  (⟨st.buffer.set idx ⟨(st.seq : Int), recv_buf⟩, st.seq + 1⟩,
    recv_buf.take recv_len)

/-- The server state after `m` datagrams have been received into a fresh
cache of capacity `N`, the `j`-th received buffer being `f j` (received
in full, `recv_len = (f j).length`). -/
def server_after (N : Nat) (m : Nat) (f : Nat → List Nat) : ServerState :=
  match m with
  | 0 => init_server N
  | m + 1 =>
    (receive_and_forward_step (server_after N m f) (f m) (f m).length).1

/-- The cache probe of handle_retransmit_requests (server.c): look at ring
index `s % N`; the slot answers only if its stored sequence equals `s`,
in which case the whole stored buffer (`config->buf_size` bytes) is the
response payload. -/
def cache_lookup (buffer : List Packet) (N : Nat) (s : Nat) :
    Option (List Nat) :=
  match buffer[s % N]? with
  | some slot =>
    if slot.sequence_number = (s : Int) then some slot.data else none
  | none => none

/-- The per-request loop of handle_retransmit_requests: each matched
sequence produces one response datagram, misses are silently skipped. -/
def handle_request_seqs (buffer : List Packet) (N : Nat)
    (seqs : List Nat) : List (List Nat) :=
  seqs.filterMap (cache_lookup buffer N)

/-- Big-endian byte encoding of a 32-bit value, as `htonl` lays it out in
the request buffer. -/
def be32 (n : Nat) : List Nat :=
  [n / 2 ^ 24 % 256, n / 2 ^ 16 % 256, n / 2 ^ 8 % 256, n % 256]

/-- Reading one 4-byte network-order sequence number (`ntohl`) from the
front of a byte list. -/
def read_be32 : List Nat → Nat
  | b0 :: b1 :: b2 :: b3 :: _ => ((b0 * 256 + b1) * 256 + b2) * 256 + b3
  | _ => 0

/-- Decoding `count` sequence numbers, 4 bytes each, from the body of a
request datagram (the read loop of handle_retransmit_requests). -/
def decode_seqs : Nat → List Nat → List Nat
  | 0, _ => []
  | k + 1, bytes => read_be32 bytes :: decode_seqs k (bytes.drop 4)

/-- Encoding a request datagram as request_missing_packets does: one
count byte followed by the sequence numbers in network byte order. -/
def encode_request (seqs : List Nat) : List Nat :=
  seqs.length :: (seqs.map be32).flatten

/-- Decoding a request datagram: first byte is the count, then that many
4-byte sequence numbers. -/
def decode_request : List Nat → List Nat
  | [] => []
  | c :: rest => decode_seqs c rest

/-- One iteration of the request loop of handle_retransmit_requests
(server.c): read the count byte, bump `packets_retransmitted` by that
count, then answer each decoded sequence that matches its cache slot.
Returns (response datagrams, amount added to `packets_retransmitted`).
An empty datagram models `recv_len <= 0` (skipped, no counter change). -/
def handle_retransmit_datagram (buffer : List Packet) (N : Nat)
    (dgram : List Nat) : List (List Nat) × Nat :=
  match dgram with
  | [] => ([], 0)
  | c :: rest => (handle_request_seqs buffer N (decode_seqs c rest), c)


/-! ### Helper lemmas: the gap-insertion loop -/

/-- Closed form of the gap loop: starting from `ms`, it appends one entry
per iteration for the sequences `lo, lo + 1, ...`, capped by the free
capacity of the missing-set, all with the same expiry `now_ms + hold`. -/
theorem gap_insert_go_eq (now_ms hold : Int) :
    ∀ (n : Nat) (ms : List MissingPacket) (lo : Int),
      gap_insert_go now_ms hold ms lo n
        = ms ++ (List.range (min n (MAX_MISSING_PACKETS - ms.length))).map
            (fun (i : Nat) => (⟨lo + (i : Int), now_ms + hold⟩ : MissingPacket))
  | 0, ms, lo => by simp [gap_insert_go]
  | n + 1, ms, lo => by
    by_cases h : ms.length < MAX_MISSING_PACKETS
    · rw [gap_insert_go, add_missing_packet, if_pos h,
        gap_insert_go_eq now_ms hold n
          (ms ++ [(⟨lo, now_ms + hold⟩ : MissingPacket)]) (lo + 1)]
      have hk : MAX_MISSING_PACKETS
            - (ms ++ [(⟨lo, now_ms + hold⟩ : MissingPacket)]).length
          = MAX_MISSING_PACKETS - ms.length - 1 := by
        simp only [List.length_append, List.length_singleton]
        omega
      have hmin : min (n + 1) (MAX_MISSING_PACKETS - ms.length)
          = min n (MAX_MISSING_PACKETS - ms.length - 1) + 1 := by omega
      rw [hk, hmin, List.range_succ_eq_map, List.map_cons, List.map_map]
      simp only [Nat.cast_zero, add_zero, List.append_assoc, List.singleton_append]
      have hfun : ((fun i : Nat =>
            (⟨lo + (i : Int), now_ms + hold⟩ : MissingPacket)) ∘ Nat.succ)
          = (fun i : Nat =>
            (⟨lo + 1 + (i : Int), now_ms + hold⟩ : MissingPacket)) := by
        funext i
        simp only [Function.comp_apply, Nat.succ_eq_add_one]
        congr 1
        push_cast
        ring
      rw [hfun]
    · rw [gap_insert_go, add_missing_packet, if_neg h,
        gap_insert_go_eq now_ms hold n ms (lo + 1)]
      have h0 : MAX_MISSING_PACKETS - ms.length = 0 := by omega
      simp [h0]

/-- Observing the expected next sequence leaves the missing-set unchanged. -/
theorem observe_consec (st : ClientState) (now_ms hold : Int) :
    observe st (st.last_seq + 1) now_ms hold
      = ⟨st.missing_packets, st.last_seq + 1⟩ := by
  simp [observe]

/-- Observing `n` consecutive sequences `c + 1, ..., c + n` from a state
with empty missing-set leaves the missing-set empty and advances the
frontier to `c + n`. -/
theorem observe_list_consec (now_ms hold : Int) :
    ∀ (n : Nat) (c : Int),
      observe_list ⟨[], c⟩
          ((List.range n).map (fun (i : Nat) => c + 1 + (i : Int))) now_ms hold
        = ⟨[], c + n⟩
  | 0, c => by simp [observe_list]
  | n + 1, c => by
    have hfun : ((fun i : Nat => c + 1 + (i : Int)) ∘ Nat.succ)
        = (fun i : Nat => (c + 1) + 1 + (i : Int)) := by
      funext i
      simp only [Function.comp_apply, Nat.succ_eq_add_one]
      push_cast
      ring
    rw [List.range_succ_eq_map, List.map_cons, List.map_map, hfun]
    have h0 : observe ⟨[], c⟩ (c + 1 + ((0 : Nat) : Int)) now_ms hold
        = ⟨[], c + 1⟩ := by
      simp [observe]
    simp only [observe_list, List.foldl_cons]
    rw [h0]
    have IH := observe_list_consec now_ms hold n (c + 1)
    simp only [observe_list] at IH
    rw [IH]
    congr 1
    push_cast
    ring

/-! ### Claim C1 -/

/-- C1, counterexample: the claim says the very first observed sequence is
recorded with no gap processing, and that any gapless strictly increasing
stream keeps the missing-set empty. In the code `last_seq` starts at `-1`,
so a first observation of sequence 5 inserts missing entries 0..4: the
missing-set is not empty after this one-element (vacuously gapless,
strictly increasing) stream. -/
theorem C1_counterexample :
    (observe initialClientState 5 0 100).missing_packets
        = [⟨0, 100⟩, ⟨1, 100⟩, ⟨2, 100⟩, ⟨3, 100⟩, ⟨4, 100⟩] ∧
    (observe initialClientState 5 0 100).missing_packets ≠ [] := by
  constructor
  · decide
  · decide

/-- C1 (amended): `lastSeq` is initialized to `-1` rather than "none", so
the first observed sequence `s` is gap-processed against `-1`: the tracker
sets `lastSeq = s` and inserts missing entries for `0, ..., s - 1` (capped
at capacity, hence none exactly when `s = 0`); consequently a stream
observed in strictly increasing order with no gaps keeps the missing-set
empty throughout provided it starts at 0 (i.e. the stream `0, 1, ..., n-1`). -/
theorem C1_zero_based_tracking (now_ms hold : Int) (n : Nat) :
    (observe_list initialClientState
        ((List.range n).map (fun (i : Nat) => (i : Int))) now_ms hold).missing_packets
      = [] ∧
    (observe initialClientState (n : Int) now_ms hold).missing_packets
      = (List.range (min n MAX_MISSING_PACKETS)).map
          (fun (i : Nat) => (⟨(i : Int), now_ms + hold⟩ : MissingPacket)) ∧
    (observe initialClientState (n : Int) now_ms hold).last_seq = (n : Int) := by
  refine ⟨?_, ?_, rfl⟩
  · have hfun : (fun (i : Nat) => (i : Int))
        = (fun (i : Nat) => (-1) + 1 + (i : Int)) := by
      funext i
      ring
    rw [show initialClientState = ⟨[], -1⟩ from rfl, hfun,
      observe_list_consec now_ms hold n (-1)]
  · cases n with
    | zero => simp [observe, initialClientState]
    | succ m =>
      have hne : ((m + 1 : Nat) : Int) ≠ (-1) + 1 := by
        push_cast
        omega
      have hobs : (observe initialClientState ((m + 1 : Nat) : Int)
            now_ms hold).missing_packets
          = gap_insert_go now_ms hold [] ((-1) + 1)
              (((m + 1 : Nat) : Int) - ((-1) + 1)).toNat := by
        simp only [observe, initialClientState]
        rw [if_pos hne]
      rw [hobs]
      have hcnt : (((m + 1 : Nat) : Int) - ((-1) + 1)).toNat = m + 1 := by
        push_cast
        omega
      rw [hcnt, gap_insert_go_eq]
      simp only [List.length_nil, Nat.sub_zero, List.nil_append]
      have hlo : (fun (i : Nat) =>
            (⟨(-1) + 1 + (i : Int), now_ms + hold⟩ : MissingPacket))
          = (fun (i : Nat) => (⟨(i : Int), now_ms + hold⟩ : MissingPacket)) := by
        funext i
        congr 1
        ring
      rw [hlo]

/-! ### Claim C2 -/

/-- C2, counterexample: the claim says a missing entry is destroyed when
its gap sequence is later observed, so it appears in no later request
batch. In the code nothing removes an entry on receipt: after observing
0, 2 (creating the entry for 1) and then 1 itself, the entry for 1 is
still present and is drained into the next batch. -/
theorem C2_counterexample :
    (observe (observe (observe initialClientState 0 0 100) 2 0 100)
        1 0 100).missing_packets = [⟨1, 100⟩] ∧
    drain_batch (observe (observe (observe initialClientState 0 0 100) 2 0 100)
        1 0 100).missing_packets = [1] := by
  constructor
  · decide
  · decide

/-- C2 (amended): observing a datagram never removes entries from the
missing-set — the receive path only appends (a gap entry is destroyed only
by the expiry purge, or is never created when capacity is full); in
particular receiving the gap sequence itself leaves its entry in place, to
be drained into later request batches until it expires. -/
theorem C2_observe_only_appends (st : ClientState) (seq now_ms hold : Int) :
    ∃ appended, (observe st seq now_ms hold).missing_packets
      = st.missing_packets ++ appended := by
  by_cases hg : seq ≠ st.last_seq + 1
  · refine ⟨(List.range (min (seq - (st.last_seq + 1)).toNat
        (MAX_MISSING_PACKETS - st.missing_packets.length))).map
        (fun (i : Nat) =>
          (⟨st.last_seq + 1 + (i : Int), now_ms + hold⟩ : MissingPacket)), ?_⟩
    simp only [observe]
    rw [if_pos hg, gap_insert_go_eq]
  · refine ⟨[], ?_⟩
    simp only [observe]
    rw [if_neg hg, List.append_nil]

/-! ### Claim C7 -/

/-- C7: from any tracker state with `lastSeq = L` and `c` entries in the
missing-set, observing `L + k + 1` (a single gap of size `k`) appends
exactly `min k (MAX_MISSING_PACKETS - c)` new entries, for the lowest
skipped sequences `L + 1` upward, each with expiry `now + holdDuration`,
and moves the frontier to the observed sequence. -/
theorem C7_single_gap_insertion (ms : List MissingPacket)
    (L now_ms hold : Int) (k : Nat) :
    (observe ⟨ms, L⟩ (L + k + 1) now_ms hold).missing_packets
      = ms ++ (List.range (min k (MAX_MISSING_PACKETS - ms.length))).map
          (fun (i : Nat) => (⟨L + 1 + (i : Int), now_ms + hold⟩ : MissingPacket)) ∧
    (observe ⟨ms, L⟩ (L + k + 1) now_ms hold).last_seq = L + k + 1 := by
  refine ⟨?_, rfl⟩
  cases k with
  | zero => simp [observe]
  | succ m =>
    have hne : L + ((m + 1 : Nat) : Int) + 1 ≠ L + 1 := by
      push_cast
      omega
    have hobs : (observe ⟨ms, L⟩ (L + ((m + 1 : Nat) : Int) + 1)
          now_ms hold).missing_packets
        = gap_insert_go now_ms hold ms (L + 1)
            ((L + ((m + 1 : Nat) : Int) + 1) - (L + 1)).toNat := by
      simp only [observe]
      rw [if_pos hne]
    rw [hobs]
    have hcnt : ((L + ((m + 1 : Nat) : Int) + 1) - (L + 1)).toNat = m + 1 := by
      push_cast
      omega
    rw [hcnt, gap_insert_go_eq]

/-! ### Claim C9 -/

/-- C9: observing an out-of-order sequence `s ≤ lastSeq` inserts nothing
but still drags the frontier back to `s`; a subsequently observed
`s' > s + 1` then (re-)inserts entries for `s + 1, ..., s' - 1` (capped at
capacity) even though those sequences may already have been received. -/
theorem C9_frontier_regression (ms : List MissingPacket)
    (L s s' now1 now2 hold1 hold2 : Int) (h1 : s ≤ L) (h2 : s + 1 < s') :
    (observe ⟨ms, L⟩ s now1 hold1).missing_packets = ms ∧
    (observe ⟨ms, L⟩ s now1 hold1).last_seq = s ∧
    (observe (observe ⟨ms, L⟩ s now1 hold1) s' now2 hold2).missing_packets
      = ms ++ (List.range (min (s' - (s + 1)).toNat
            (MAX_MISSING_PACKETS - ms.length))).map
          (fun (i : Nat) => (⟨s + 1 + (i : Int), now2 + hold2⟩ : MissingPacket)) := by
  have hg : s ≠ L + 1 := by omega
  have hfirst : observe ⟨ms, L⟩ s now1 hold1 = ⟨ms, s⟩ := by
    have h0 : (s - (L + 1)).toNat = 0 := by omega
    simp only [observe]
    rw [if_pos hg, h0]
    rfl
  refine ⟨by rw [hfirst], by rw [hfirst], ?_⟩
  rw [hfirst]
  have hg2 : s' ≠ s + 1 := by omega
  simp only [observe]
  rw [if_pos hg2, gap_insert_go_eq]

/-- C9, witness: a concrete instance — from `lastSeq = 10`, observing 3
then 7 re-inserts entries for 4, 5, 6. -/
theorem C9_frontier_regression_witness :
    (observe ⟨[], 10⟩ 3 5 100).missing_packets = [] ∧
    (observe ⟨[], 10⟩ 3 5 100).last_seq = 3 ∧
    (observe (observe ⟨[], 10⟩ 3 5 100) 7 6 100).missing_packets
      = [] ++ (List.range (min ((7 : Int) - (3 + 1)).toNat
            (MAX_MISSING_PACKETS - ([] : List MissingPacket).length))).map
          (fun (i : Nat) => (⟨3 + 1 + (i : Int), 6 + 100⟩ : MissingPacket)) :=
  C9_frontier_regression [] 10 3 7 5 6 100 100 (by decide) (by decide)

/-! ### Claim C10 -/

/-- C10: `add_missing_packet` performs no duplicate check — if the set
holds fewer than MAX_MISSING_PACKETS entries, inserting a sequence `s`
already present appends a further entry with the same sequence number, so
at least two entries for `s` coexist. -/
theorem C10_duplicate_insertion (ms : List MissingPacket)
    (s now_ms hold : Int) (hc : ms.length < MAX_MISSING_PACKETS)
    (hs : s ∈ ms.map MissingPacket.sequence_number) :
    ((add_missing_packet ms s now_ms hold).map
        MissingPacket.sequence_number).count s
      = (ms.map MissingPacket.sequence_number).count s + 1 ∧
    2 ≤ ((add_missing_packet ms s now_ms hold).map
        MissingPacket.sequence_number).count s := by
  have hadd : add_missing_packet ms s now_ms hold
      = ms ++ [⟨s, now_ms + hold⟩] := by
    simp [add_missing_packet, hc]
  have hcount : ((add_missing_packet ms s now_ms hold).map
        MissingPacket.sequence_number).count s
      = (ms.map MissingPacket.sequence_number).count s + 1 := by
    rw [hadd, List.map_append, List.count_append]
    simp
  refine ⟨hcount, ?_⟩
  have hpos : 0 < (ms.map MissingPacket.sequence_number).count s :=
    List.count_pos_iff.mpr hs
  omega

/-- C10, witness: inserting 7 into a one-entry set already holding 7
yields two entries with sequence number 7. -/
theorem C10_duplicate_insertion_witness :
    (([⟨7, 50⟩] : List MissingPacket).length < MAX_MISSING_PACKETS) ∧
    ((7 : Int) ∈ ([⟨7, 50⟩] : List MissingPacket).map
        MissingPacket.sequence_number) ∧
    ((add_missing_packet [⟨7, 50⟩] 7 0 100).map
        MissingPacket.sequence_number).count 7
      = (([⟨7, 50⟩] : List MissingPacket).map
          MissingPacket.sequence_number).count 7 + 1 ∧
    2 ≤ ((add_missing_packet [⟨7, 50⟩] 7 0 100).map
        MissingPacket.sequence_number).count 7 :=
  ⟨by decide, by decide,
    (C10_duplicate_insertion [⟨7, 50⟩] 7 0 100 (by decide) (by decide)).1,
    (C10_duplicate_insertion [⟨7, 50⟩] 7 0 100 (by decide) (by decide)).2⟩

/-! ### Claim C5 -/

/-- Soundness of the swap-remove purge loop: if every entry before index
`i` is already known to be unexpired and the fuel covers the remaining
positions, every entry surviving the loop is unexpired. -/
theorem remove_expired_go_not_expired (now : Int) :
    ∀ (fuel : Nat) (ms : List MissingPacket) (i : Nat),
      ms.length ≤ fuel + i →
      (∀ (j : Nat) (hj : j < ms.length), j < i → now < ms[j].expiration_time) →
      ∀ p ∈ remove_expired_go now fuel ms i, now < p.expiration_time
  | 0, ms, i => by
    intro hlen hinv p hp
    rw [remove_expired_go] at hp
    obtain ⟨j, hj, rfl⟩ := List.mem_iff_getElem.mp hp
    exact hinv j hj (by omega)
  | fuel + 1, ms, i => by
    intro hlen hinv p hp
    rw [remove_expired_go] at hp
    by_cases h : i < ms.length
    · rw [dif_pos h] at hp
      by_cases hex : ms[i].expiration_time ≤ now
      · rw [if_pos hex] at hp
        have hlen1 : ((ms.set i (ms.getLastD ⟨0, 0⟩)).dropLast).length
            = ms.length - 1 := by
          simp [List.length_dropLast, List.length_set]
        refine remove_expired_go_not_expired now fuel
          ((ms.set i (ms.getLastD ⟨0, 0⟩)).dropLast) i (by omega) ?_ p hp
        intro j hj hji
        have hjs : j < (ms.set i (ms.getLastD ⟨0, 0⟩)).length := by
          rw [List.length_set]
          omega
        have hjm : j < ms.length := by omega
        rw [List.getElem_dropLast, List.getElem_set_of_ne (by omega : i ≠ j)]
        exact hinv j hjm hji
      · rw [if_neg hex] at hp
        refine remove_expired_go_not_expired now fuel ms (i + 1) (by omega) ?_ p hp
        intro j hj hji
        by_cases hj2 : j < i
        · exact hinv j hj hj2
        · have hje : j = i := by omega
          subst hje
          exact lt_of_not_le hex
    · rw [dif_neg h] at hp
      obtain ⟨j, hj, rfl⟩ := List.mem_iff_getElem.mp hp
      exact hinv j hj (by omega)

/-- C5, counterexample: the claim says an entry whose expiry has passed is
never included in a request datagram. In the code, a tick drains the batch
before purging: at a tick taken at time 150, the entry that expired at 100
is still placed into (and sent with) the batch, and only then purged. -/
theorem C5_counterexample :
    ((⟨5, 100⟩ : MissingPacket).expiration_time ≤ 150) ∧
    (requester_tick [⟨5, 100⟩] 150).1 = [5] ∧
    (requester_tick [⟨5, 100⟩] 150).2 = [] := by
  refine ⟨by decide, by decide, by decide⟩

/-- C5 (amended): the drain performs no expiry check — an entry whose
expiry passed since the previous purge can be included in one more request
batch — but each tick's purge removes every entry with
`expiresAt ≤ now`, so every entry still trackable after a tick at time
`now` (and hence anything drainable at a later tick) satisfies
`now < expiresAt`, and an entry is never requested again after the purge
following its expiry. -/
theorem C5_purge_bounds_requests (ms : List MissingPacket) (now : Int)
    (p : MissingPacket) (hp : p ∈ (requester_tick ms now).2) :
    now < p.expiration_time := by
  simp only [requester_tick, remove_expired_packets] at hp
  refine remove_expired_go_not_expired now ms.length ms 0 (by omega) ?_ p hp
  intro j hj hji
  exact absurd hji (Nat.not_lt_zero j)

/-- C5, witness: after a tick at time 150 on a set holding an expired
entry (expiry 100) and a live one (expiry 300), the live entry survives
the purge and indeed has 150 < expiry. -/
theorem C5_purge_bounds_requests_witness :
    ((⟨6, 300⟩ : MissingPacket) ∈ (requester_tick [⟨5, 100⟩, ⟨6, 300⟩] 150).2) ∧
    (150 : Int) < (⟨6, 300⟩ : MissingPacket).expiration_time :=
  ⟨by decide,
    C5_purge_bounds_requests [⟨5, 100⟩, ⟨6, 300⟩] 150 ⟨6, 300⟩ (by decide)⟩

/-! ### Helper lemmas: the server cache -/

/-- The ring buffer keeps its configured capacity. -/
theorem server_after_buffer_length (N : Nat) (f : Nat → List Nat) :
    ∀ m, (server_after N m f).buffer.length = N
  | 0 => by simp [server_after, init_server]
  | m + 1 => by
    simp [server_after, receive_and_forward_step, List.length_set,
      server_after_buffer_length N f m]

/-- The server's arrival counter equals the number of datagrams received. -/
theorem server_after_seq (N : Nat) (f : Nat → List Nat) :
    ∀ m, (server_after N m f).seq = m
  | 0 => rfl
  | m + 1 => by
    simp [server_after, receive_and_forward_step, server_after_seq N f m]

/-- Ring-buffer freshness: after `m` arrivals, the slot probed for ordinal
`s < m` still carries sequence `s` exactly when fewer than `N` arrivals
came after it, i.e. `m ≤ s + N`. -/
theorem server_slot_match (N : Nat) (f : Nat → List Nat) (hN : 0 < N) :
    ∀ (m s : Nat), s < m →
      ∀ (h : s % N < (server_after N m f).buffer.length),
        (((server_after N m f).buffer)[s % N].sequence_number = (s : Int)
          ↔ m ≤ s + N)
  | 0, s => by
    intro hs
    exact absurd hs (Nat.not_lt_zero s)
  | m + 1, s => by
    intro hs h
    have hlenm : (server_after N m f).buffer.length = N :=
      server_after_buffer_length N f m
    have hseqm : (server_after N m f).seq = m := server_after_seq N f m
    have hbuf : (server_after N (m + 1) f).buffer
        = (server_after N m f).buffer.set (m % N)
            ⟨(m : Int), f m⟩ := by
      simp [server_after, receive_and_forward_step, hseqm, hlenm]
    rw [hbuf] at h
    simp only [hbuf]
    by_cases hsm : s = m
    · subst hsm
      rw [List.getElem_set_self]
      constructor
      · intro _
        omega
      · intro _
        rfl
    · have hsm' : s < m := by omega
      by_cases hmod : s % N = m % N
      · simp only [hmod]
        rw [List.getElem_set_self]
        show ((m : Nat) : Int) = ((s : Nat) : Int) ↔ m + 1 ≤ s + N
        have hdvd : N ∣ (m - s) :=
          (Nat.modEq_iff_dvd' (le_of_lt hsm')).mp hmod
      
        have hge : N ≤ m - s := Nat.le_of_dvd (by omega) hdvd
        constructor
        · intro hh
          have : m = s := by omega
          omega
        · intro hh
          omega
      · rw [List.getElem_set_ne (Ne.symm hmod) _]
        have hidx : s % N < (server_after N m f).buffer.length := by
          rw [hlenm]
          exact Nat.mod_lt s hN
        have IH := server_slot_match N f hN m s hsm' hidx
        have hne2 : m ≠ s + N := by
          intro hh
          apply hmod
          rw [hh]
          simp [Nat.add_mod_right]
        constructor
        · intro hh
          have := IH.mp hh
          omega
        · intro hh
          exact IH.mpr (by omega)

/-! ### Claim C6 -/

/-- C6: with server cache capacity `N`, after arrivals `0, ..., m - 1`, a
retransmit request for ordinal `s < m` is satisfied with exactly one
response exactly when `s` is among the last `N` arrivals (`m ≤ s + N`,
i.e. `max (0, m - N) ≤ s ≤ m - 1`), and produces no response exactly when
`s` is older than the last `N` arrivals. -/
theorem C6_cache_window (N m s : Nat) (f : Nat → List Nat)
    (hN : 0 < N) (hs : s < m) :
    ((handle_request_seqs (server_after N m f).buffer N [s]).length = 1
      ↔ m ≤ s + N) ∧
    ((handle_request_seqs (server_after N m f).buffer N [s]).length = 0
      ↔ s + N < m) := by
  have hlen : (server_after N m f).buffer.length = N :=
    server_after_buffer_length N f m
  have hidx : s % N < (server_after N m f).buffer.length := by
    rw [hlen]
    exact Nat.mod_lt s hN
  have hslot := server_slot_match N f hN m s hs hidx
  have hget : (server_after N m f).buffer[s % N]?
      = some ((server_after N m f).buffer[s % N]) :=
    List.getElem?_eq_getElem hidx
  by_cases hmatch :
      ((server_after N m f).buffer)[s % N].sequence_number = (s : Int)
  · have hlook : cache_lookup (server_after N m f).buffer N s
        = some (((server_after N m f).buffer)[s % N]).data := by
      simp only [cache_lookup, hget]
      rw [if_pos hmatch]
    have hresp : handle_request_seqs (server_after N m f).buffer N [s]
        = [(((server_after N m f).buffer)[s % N]).data] := by
      simp [handle_request_seqs, hlook]
    rw [hresp]
    have hle : m ≤ s + N := hslot.mp hmatch
    constructor
    · constructor
      · intro _
        exact hle
      · intro _
        rfl
    · constructor
      · intro hh
        simp at hh
      · intro hh
        omega
  · have hlook : cache_lookup (server_after N m f).buffer N s = none := by
      simp only [cache_lookup, hget]
      rw [if_neg hmatch]
    have hresp : handle_request_seqs (server_after N m f).buffer N [s]
        = [] := by
      simp [handle_request_seqs, hlook]
    rw [hresp]
    have hgt : ¬ (m ≤ s + N) := fun hh => hmatch (hslot.mpr hh)
    constructor
    · constructor
      · intro hh
        simp at hh
      · intro hh
        exact absurd hh hgt
    · constructor
      · intro _
        omega
      · intro _
        rfl

/-- C6, witness: the spec's concrete scenario with capacity N = 10 —
after inserting ordinals 0..15, a request for 13 is satisfied with one
response and a request for 2 sends nothing. -/
theorem C6_cache_window_witness :
    (0 : Nat) < 10 ∧ (13 : Nat) < 16 ∧
    (handle_request_seqs (server_after 10 16 (fun _ => [])).buffer 10
        [13]).length = 1 ∧
    (handle_request_seqs (server_after 10 16 (fun _ => [])).buffer 10
        [2]).length = 0 :=
  ⟨by decide, by decide,
    (C6_cache_window 10 16 13 (fun _ => []) (by decide) (by decide)).1.mpr
      (by decide),
    by decide⟩

/-! ### Claim C3 -/

/-- C3, counterexample: the claim says `retransmitsSent`
(`packets_retransmitted` in server.c) is incremented by the number of
requests matched in the cache, not by the number requested. With capacity
2 after arrivals 0, 1, 2, a request for ordinal 0 matches nothing (slot 0
now holds ordinal 2), yet the counter is incremented by 1. -/
theorem C3_counterexample :
    (handle_retransmit_datagram (server_after 2 3 (fun i => [i])).buffer 2
        (encode_request [0])).2 = 1 ∧
    (handle_retransmit_datagram (server_after 2 3 (fun i => [i])).buffer 2
        (encode_request [0])).1.length = 0 := by
  refine ⟨by decide, by decide⟩

/-- C3 (amended): for every received request batch, the server increments
`packets_retransmitted` by the count byte of the datagram — the number of
sequences requested — regardless of the cache contents and of how many
requests are actually matched and answered. -/
theorem C3_counter_counts_requests (buffer : List Packet) (N : Nat)
    (seqs : List Nat) :
    (handle_retransmit_datagram buffer N (encode_request seqs)).2
      = seqs.length := rfl

/-! ### Claim C4 -/

/-- C4: the claim says a retransmit response is byte-for-byte identical
(same bytes, same length) to the originally forwarded datagram. The code
instead re-sends `config->buf_size` bytes of the stored receive buffer:
with `buf_size = 8`, a 4-byte datagram `[1,2,3,4]` (uninitialized buffer
tail modelled as `[9,9,9,9]`) is forwarded as 4 bytes but retransmitted as
all 8 stored bytes, so the response differs from the forwarded original
(the received prefix agrees, the length does not). -/
theorem C4_retransmit_length_bug :
    (receive_and_forward_step (init_server 4) [1, 2, 3, 4, 9, 9, 9, 9] 4).2
      = [1, 2, 3, 4] ∧
    (handle_retransmit_datagram
        (receive_and_forward_step (init_server 4)
          [1, 2, 3, 4, 9, 9, 9, 9] 4).1.buffer
        4 (encode_request [0])).1
      = [[1, 2, 3, 4, 9, 9, 9, 9]] ∧
    ([1, 2, 3, 4, 9, 9, 9, 9] : List Nat) ≠ [1, 2, 3, 4] ∧
    ([1, 2, 3, 4, 9, 9, 9, 9] : List Nat).take 4 = [1, 2, 3, 4] := by
  refine ⟨by decide, by decide, by decide, by decide⟩

/-! ### Claim C8 -/

/-- Reading back a 32-bit value written in network byte order recovers it. -/
theorem read_be32_be32 (n : Nat) (hn : n < 2 ^ 32) (rest : List Nat) :
    read_be32 (be32 n ++ rest) = n := by
  simp only [be32, List.cons_append, List.nil_append, read_be32]
  omega

/-- Decoding the body of an encoded request recovers the sequence list. -/
theorem decode_seqs_encode :
    ∀ seqs : List Nat, (∀ x ∈ seqs, x < 2 ^ 32) →
      decode_seqs seqs.length ((seqs.map be32).flatten) = seqs
  | [], _ => rfl
  | q :: rest, hall => by
    simp only [List.map_cons, List.flatten_cons, List.length_cons, decode_seqs]
    have hq : read_be32 (be32 q ++ (rest.map be32).flatten) = q :=
      read_be32_be32 q (hall q (by simp)) _
    have hdrop : (be32 q ++ (rest.map be32).flatten).drop 4
        = (rest.map be32).flatten := by
      simp [be32]
    rw [hq, hdrop, decode_seqs_encode rest (fun x hx => hall x (by simp [hx]))]

/-- C8: encoding any list of `k` 32-bit sequence numbers
(`1 ≤ k ≤ MAX_BATCH_SIZE`) as a request datagram — one count byte followed
by `k` four-byte network-order values — and decoding it yields the
identical ordered list. -/
theorem C8_codec_roundtrip (seqs : List Nat) (h1 : 1 ≤ seqs.length)
    (h2 : seqs.length ≤ MAX_BATCH_SIZE) (hb : ∀ x ∈ seqs, x < 2 ^ 32) :
    decode_request (encode_request seqs) = seqs := by
  simp only [encode_request, decode_request]
  exact decode_seqs_encode seqs hb

/-- C8, witness: a concrete three-element batch round-trips, including the
largest 32-bit value. -/
theorem C8_codec_roundtrip_witness :
    1 ≤ ([0, 4294967295, 7] : List Nat).length ∧
    ([0, 4294967295, 7] : List Nat).length ≤ MAX_BATCH_SIZE ∧
    decode_request (encode_request [0, 4294967295, 7]) = [0, 4294967295, 7] :=
  ⟨by decide, by decide,
    C8_codec_roundtrip [0, 4294967295, 7] (by decide) (by decide) (by decide)⟩
